import Mathlib

/-!
Verification of the state/history/rendering-scheduling core of the
design-playground application.

The embedding follows the source:
* `DesignSystem` mirrors the `DesignSystem` interface of `src/types.ts`
  (string-literal unions are modelled as `String`, JS numbers produced by
  `parseInt` as `Int`).
* `useHistoryState` in `src/App.tsx` keeps `{past, present, future}` stacks;
  `setState`, `undo`, `redo`, `canUndo`, `canRedo` below mirror its callbacks.
  The `JSON.stringify(value) === JSON.stringify(curr.present)` guard is
  modelled by comparing the serialized field lists (`designToFields`): for
  documents of this fixed shape, built with a fixed key order and integer
  numeric fields, `JSON.stringify` equality coincides with equality of the
  ordered field list.
* The persistence `useEffect` has dependency array `[present, key]`; it fires
  exactly when `present` changes between renders (`persistWrite`).
* The startup initializer merges `{...initialValue, ...JSON.parse(item)}`;
  JS object spread is modelled by `spreadFields` on ordered key-value lists,
  and spreading a non-object JSON value (which contributes only numeric
  index keys, or nothing) by `nonObjectFields`.
* `renderFormattedText` in the playground component splits on the regex
  `(\*\*.*?\*\*|\*.*?\*)` with a capture group; the lazy, ordered-alternation
  match and JS `String.split` semantics are implemented character by
  character (`matchAt`, `splitGo`), including the fact that `.` does not
  match line terminators.
* The `keydown` handler of the playground component is `handleKeyDown`.
-/

-- JSON values, as produced by `JSON.parse`.  Mutual with explicit list
-- types so that decidable equality can be derived.
mutual

inductive Json where
  | str (s : String)
  | num (n : Int)
  | bool (b : Bool)
  | null
  | arr (elems : JsonList)
  | obj (fields : JsonFields)
deriving DecidableEq, Repr

inductive JsonList where
  | nil
  | cons (head : Json) (tail : JsonList)
deriving DecidableEq, Repr

inductive JsonFields where
  | nil
  | cons (key : String) (val : Json) (tail : JsonFields)
deriving DecidableEq, Repr

end

/-- The design document, from the `DesignSystem` interface in `src/types.ts`. -/
structure DesignSystem where
  primaryColor : String
  secondaryColor : String
  fontFamily : String
  borderRadius : String
  layoutMode : String
  darkMode : Bool
  baseFontSize : Int
  headingText : String
  subheadingText : String
  bodyText : String
  gridColumns : Int
  gridGap : Int
deriving DecidableEq, Repr

/-- `DEFAULT_DESIGN` from `src/App.tsx`. -/
def defaultDesign : DesignSystem :=
  { primaryColor := "#3b82f6"
    secondaryColor := "#10b981"
    fontFamily := "sans"
    borderRadius := "md"
    layoutMode := "landing"
    darkMode := true
    baseFontSize := 16
    headingText := "Build Your **Next Idea**"
    subheadingText := "A visual playground for developers and designers to conceptualize interfaces instantly."
    bodyText := "Automated styling and layout generation for rapid prototyping."
    gridColumns := 3
    gridGap := 24 }

/-- Serialization of a document as its ordered field list: the JSON object
produced by `JSON.stringify` on a document.  All documents in the program are
built from `DEFAULT_DESIGN` (or the startup merge over it) by object spread,
so they all carry this key order. -/
def designToFields (d : DesignSystem) : List (String × Json) :=
  [("primaryColor", .str d.primaryColor),
   ("secondaryColor", .str d.secondaryColor),
   ("fontFamily", .str d.fontFamily),
   ("borderRadius", .str d.borderRadius),
   ("layoutMode", .str d.layoutMode),
   ("darkMode", .bool d.darkMode),
   ("baseFontSize", .num d.baseFontSize),
   ("headingText", .str d.headingText),
   ("subheadingText", .str d.subheadingText),
   ("bodyText", .str d.bodyText),
   ("gridColumns", .num d.gridColumns),
   ("gridGap", .num d.gridGap)]

theorem designToFields_inj {d d' : DesignSystem}
    (h : designToFields d = designToFields d') : d = d' := by
  cases d; cases d'
  simp only [designToFields, List.cons.injEq, Prod.mk.injEq, Json.str.injEq,
    Json.bool.injEq, Json.num.injEq, and_true, true_and, List.nil_eq] at h
  simp_all

/-- The `{past, present, future}` record kept by `useHistoryState` in
`src/App.tsx` (instantiated at `T = DesignSystem`). -/
structure HistoryState where
  past : List DesignSystem
  present : DesignSystem
  future : List DesignSystem
deriving DecidableEq, Repr

/-- The `setState` callback of `useHistoryState`, applied to a literal new
document.  The guard compares `JSON.stringify` of the candidate and of the
current present, modelled as equality of the serialized field lists. -/
def setState (curr : HistoryState) (value : DesignSystem) : HistoryState :=
  if designToFields value = designToFields curr.present then curr
  else
    { past := curr.past ++ [curr.present]
      present := value
      future := [] }

/-- The `setState` callback applied to an updater function: the source
computes `value = newState(curr.present)` and proceeds identically. -/
def setStateF (curr : HistoryState) (f : DesignSystem → DesignSystem) :
    HistoryState :=
  setState curr (f curr.present)

/-- The `undo` callback of `useHistoryState`. -/
def undo (curr : HistoryState) : HistoryState :=
  match curr.past.getLast? with
  | none => curr
  | some previous =>
      { past := curr.past.dropLast
        present := previous
        future := curr.present :: curr.future }

/-- The `redo` callback of `useHistoryState`. -/
def redo (curr : HistoryState) : HistoryState :=
  match curr.future with
  | [] => curr
  | next :: rest =>
      { past := curr.past ++ [curr.present]
        present := next
        future := rest }

/-- `canUndo` from the hook's return value: `history.past.length > 0`. -/
def canUndo (s : HistoryState) : Bool := s.past.length > 0

/-- `canRedo` from the hook's return value: `history.future.length > 0`. -/
def canRedo (s : HistoryState) : Bool := s.future.length > 0

/-- The persistence effect has dependency array `[present, key]`: a write to
storage is triggered by a state transition exactly when the transition
changed `present`.  (React compares dependencies by reference; the equality
guard in `setState` returns the same record when the serialized forms agree,
so reference change and value change coincide for `present`.) -/
def persistWrite (pre post : HistoryState) : Prop :=
  post.present ≠ pre.present

/-- A sequence of `setState` calls, oldest first. -/
def applySets (s : HistoryState) (ds : List DesignSystem) : HistoryState :=
  ds.foldl setState s

/-- JS property read on an object represented as an ordered key-value list. -/
def getProp : List (String × Json) → String → Option Json
  | [], _ => none
  | (k, v) :: rest, key => if key = k then some v else getProp rest key

/-- JS object spread `{...a, ...b}`: the keys of `a` in order, values
overridden by `b` where `b` has the key, followed by the keys of `b` that
`a` lacks, in `b`'s order. -/
def spreadFields (a b : List (String × Json)) : List (String × Json) :=
  a.map (fun kv =>
    match getProp b kv.1 with
    | some v => (kv.1, v)
    | none => kv)
  ++ b.filter (fun kv => (getProp a kv.1).isNone)

/-- Conversion of the object-fields spine to a list. -/
def jsonFieldsToList : JsonFields → List (String × Json)
  | .nil => []
  | .cons k v rest => (k, v) :: jsonFieldsToList rest

/-- Conversion of a list to the object-fields spine. -/
def listToJsonFields : List (String × Json) → JsonFields
  | [] => .nil
  | (k, v) :: rest => .cons k v (listToJsonFields rest)

/-- Conversion of the array spine to a list. -/
def jsonListToList : JsonList → List Json
  | .nil => []
  | .cons h t => h :: jsonListToList t

/-- Enumerable own properties contributed by spreading a sequence of values:
decimal index keys `"start"`, `"start+1"`, ... -/
def indexFields : List Json → Nat → List (String × Json)
  | [], _ => []
  | v :: rest, start => (Nat.repr start, v) :: indexFields rest (start + 1)

/-- Enumerable own properties of a non-object JSON value, as seen by object
spread: a string contributes one single-character property per index, an
array one property per element, and numbers, booleans and `null` contribute
nothing. -/
def nonObjectFields : Json → List (String × Json)
  | .str s => indexFields (s.toList.map (fun c => .str (String.singleton c))) 0
  | .arr es => indexFields (jsonListToList es) 0
  | _ => []

/-- The own enumerable properties of a parsed JSON value, as consumed by the
spread `{...initialValue, ...JSON.parse(item)}`. -/
def parsedFields : Json → List (String × Json)
  | .obj fs => jsonFieldsToList fs
  | j => nonObjectFields j

/-- Result of the `useState` initializer of `useHistoryState`: the initial
history record, with `present` kept at the object level (its ordered
key-value list) so that the merge of persisted and default fields can be
inspected. -/
structure InitState where
  past : List (List (String × Json))
  present : List (String × Json)
  future : List (List (String × Json))
deriving DecidableEq, Repr

/-- The `useState` initializer of `useHistoryState` in `src/App.tsx`.
`stored = none` models no item under the key (or an empty string, which is
falsy); `stored = some none` models an item on which `JSON.parse` throws
(the `catch` falls through to the default branch); `stored = some (some j)`
models an item parsing to `j`, merged as `{...initialValue, ...j}`. -/
def initHistory (initialValue : DesignSystem) (stored : Option (Option Json)) :
    InitState :=
  match stored with
  | some (some j) =>
      { past := []
        present := spreadFields (designToFields initialValue) (parsedFields j)
        future := [] }
  | _ =>
      { past := []
        present := designToFields initialValue
        future := [] }

/-- Characters matched by `.` in a JS regular expression without the `s`
flag: any character except a line terminator. -/
def dotChar (c : Char) : Bool :=
  c != '\n' && c != '\r' && c != ' ' && c != ' '

/-- Lazy scan of `.*?\*\*`: the shortest run of dot characters up to a
closing `**`.  Returns the run and the characters after the closing pair. -/
def findCloseBold : List Char → Option (List Char × List Char)
  | [] => none
  | c :: rest =>
      if c = '*' && rest.head? == some '*' then some ([], rest.tail)
      else if dotChar c then
        match findCloseBold rest with
        | some (mid, r) => some (c :: mid, r)
        | none => none
      else none

/-- Lazy scan of `.*?\*`: the shortest run of dot characters up to a closing
`*`.  Returns the run and the characters after the closing star. -/
def findCloseItalic : List Char → Option (List Char × List Char)
  | [] => none
  | c :: rest =>
      if c = '*' then some ([], rest)
      else if dotChar c then
        match findCloseItalic rest with
        | some (mid, r) => some (c :: mid, r)
        | none => none
      else none

/-- Match of the regex `(\*\*.*?\*\*|\*.*?\*)` anchored at the start of the
input: the first (bold) alternative is tried before the second (italic), and
`.*?` expands lazily.  Returns the matched characters and the remainder. -/
def matchAt (s : List Char) : Option (List Char × List Char) :=
  match s with
  | [] => none
  | c :: rest =>
      if c = '*' then
        if rest.head? == some '*' then
          match findCloseBold rest.tail with
          | some (mid, r) => some ('*' :: '*' :: (mid ++ ['*', '*']), r)
          | none =>
              -- the bold alternative fails; the italic alternative opens at
              -- the first star and its lazy middle closes immediately at
              -- the second star
              some (['*', '*'], rest.tail)
        else
          match findCloseItalic rest with
          | some (mid, r) => some ('*' :: (mid ++ ['*']), r)
          | none => none
      else none

theorem findCloseBold_len {l mid r : List Char}
    (h : findCloseBold l = some (mid, r)) : r.length < l.length := by
  induction l generalizing mid with
  | nil => simp [findCloseBold] at h
  | cons c rest ih =>
    simp only [findCloseBold] at h
    split at h
    · rename_i hc
      obtain ⟨_, h2⟩ := Prod.mk.injEq .. ▸ (Option.some.injEq .. ▸ h)
      subst h2
      cases rest with
      | nil => simp at hc
      | cons d t => simp_all [List.length_cons]; omega
    · split at h
      · match hfc : findCloseBold rest with
        | some (mid2, r2) =>
          rw [hfc] at h
          obtain ⟨_, h2⟩ := Prod.mk.injEq .. ▸ (Option.some.injEq .. ▸ h)
          subst h2
          have := ih hfc
          simp [List.length_cons]; omega
        | none => rw [hfc] at h; exact absurd h (by simp)
      · exact absurd h (by simp)

theorem findCloseItalic_len {l mid r : List Char}
    (h : findCloseItalic l = some (mid, r)) : r.length < l.length := by
  induction l generalizing mid with
  | nil => simp [findCloseItalic] at h
  | cons c rest ih =>
    simp only [findCloseItalic] at h
    split at h
    · obtain ⟨_, h2⟩ := Prod.mk.injEq .. ▸ (Option.some.injEq .. ▸ h)
      subst h2
      simp
    · split at h
      · match hfc : findCloseItalic rest with
        | some (mid2, r2) =>
          rw [hfc] at h
          obtain ⟨_, h2⟩ := Prod.mk.injEq .. ▸ (Option.some.injEq .. ▸ h)
          subst h2
          have := ih hfc
          simp [List.length_cons]; omega
        | none => rw [hfc] at h; exact absurd h (by simp)
      · exact absurd h (by simp)

theorem matchAt_rest_lt {s m r : List Char}
    (h : matchAt s = some (m, r)) : r.length < s.length := by
  cases s with
  | nil => simp [matchAt] at h
  | cons c rest =>
    simp only [matchAt] at h
    split at h
    · split at h
      · rename_i hhead
        match hfc : findCloseBold rest.tail with
        | some (mid, r2) =>
          rw [hfc] at h
          obtain ⟨_, h2⟩ := Prod.mk.injEq .. ▸ (Option.some.injEq .. ▸ h)
          subst h2
          have h1 := findCloseBold_len hfc
          have h3 : rest.tail.length ≤ rest.length := by
            cases rest <;> simp
          simp [List.length_cons]; omega
        | none =>
          rw [hfc] at h
          obtain ⟨_, h2⟩ := Prod.mk.injEq .. ▸ (Option.some.injEq .. ▸ h)
          subst h2
          cases rest with
          | nil => simp_all
          | cons d t => simp [List.length_cons]; omega
      · match hfc : findCloseItalic rest with
        | some (mid, r2) =>
          rw [hfc] at h
          obtain ⟨_, h2⟩ := Prod.mk.injEq .. ▸ (Option.some.injEq .. ▸ h)
          subst h2
          have := findCloseItalic_len hfc
          simp [List.length_cons]; omega
        | none => rw [hfc] at h; exact absurd h (by simp)
    · exact absurd h (by simp)

/-- JS `String.split` on a global regex with one capture group: the pieces
of text between matches, interleaved with the captured matches (empty pieces
included).  `acc` holds the characters of the current piece, reversed; the
fuel argument only bounds the recursion and is never exhausted when it
exceeds the input length. -/
def splitGo : Nat → List Char → List Char → List String
  | 0, acc, _ => [acc.reverse.asString]
  | fuel + 1, acc, s =>
      match matchAt s with
      | some (m, r) => acc.reverse.asString :: m.asString :: splitGo fuel [] r
      | none =>
          match s with
          | [] => [acc.reverse.asString]
          | c :: rest => splitGo fuel (c :: acc) rest

/-- `text.split(/(\*\*.*?\*\*|\*.*?\*)/g)` from `renderFormattedText`.  The
scan consumes at least one character per step (`matchAt_rest_lt`), so fuel
one larger than the input length never runs out. -/
def splitParts (text : String) : List String :=
  splitGo (text.toList.length + 1) [] text.toList

/-- One element of the sequence produced by `renderFormattedText`: a plain
text run, a `<strong>` run styled with the primary color, or an `<em>` run
styled with the secondary color. -/
inductive Segment where
  | plain (text : String)
  | styledPrimary (text : String) (color : String)
  | styledSecondary (text : String) (color : String)
deriving DecidableEq, Repr

/-- JS `part.slice(k, -k)`: drop `k` characters from each end, clamping to
the empty string when fewer than `2 * k` characters remain. -/
def sliceTrim (k : Nat) (s : String) : String :=
  ((s.toList.drop k).take (s.toList.length - 2 * k)).asString

/-- JS `s.startsWith(pre)`: prefix test on the character sequence. -/
def jsStartsWith (s pre : String) : Bool :=
  pre.toList.isPrefixOf s.toList

/-- JS `s.endsWith(suf)`: suffix test on the character sequence. -/
def jsEndsWith (s suf : String) : Bool :=
  List.isSuffixOf suf.toList s.toList

/-- The body of the `parts.map` in `renderFormattedText`. -/
def renderPart (primaryColor secondaryColor part : String) : Segment :=
  if jsStartsWith part "**" && jsEndsWith part "**" then
    .styledPrimary (sliceTrim 2 part) primaryColor
  else if jsStartsWith part "*" && jsEndsWith part "*" then
    .styledSecondary (sliceTrim 1 part) secondaryColor
  else .plain part

/-- `renderFormattedText` from the playground component: empty (falsy) input
returns `null`, modelled as the empty sequence; otherwise the input is split
on the markup regex and each part is classified. -/
def renderFormattedText (text primaryColor secondaryColor : String) :
    List Segment :=
  if text = "" then []
  else (splitParts text).map (renderPart primaryColor secondaryColor)

/-- The text content carried by a segment (what the segment renders). -/
def segText : Segment → String
  | .plain t => t
  | .styledPrimary t _ => t
  | .styledSecondary t _ => t

/-- A keyboard event, with the fields read by the playground's `keydown`
handler. -/
structure KeyEvent where
  ctrlKey : Bool
  metaKey : Bool
  shiftKey : Bool
  key : String
deriving DecidableEq, Repr

/-- The `handleKeyDown` effect of the playground component, expressed as its
action on the history state: `onUndo`/`onRedo` invoke the hook's
`undo`/`redo`, and `canUndo`/`canRedo` gate the calls. -/
def handleKeyDown (s : HistoryState) (e : KeyEvent) : HistoryState :=
  if e.ctrlKey || e.metaKey then
    if e.key = "z" then
      if e.shiftKey then
        if canRedo s then redo s else s
      else
        if canUndo s then undo s else s
    else if e.key = "y" then
      if canRedo s then redo s else s
    else s
  else s

/-- Modelled from the spec: the implementation of the deferred render
scheduler (`useDeferredValue` and React's priority scheduling) is not part of
this repository; only its call site is.  The state tracks positions in the
sequence of authoritative documents of a burst: `auth` is the index of the
latest document produced by the history engine, `lag` the index of the
document currently shown by the deferred rendering path. -/
structure DeferredState where
  auth : Nat
  lag : Nat
deriving DecidableEq, Repr

/-- Modelled from the spec: one scheduler event.  `set` is a new
authoritative document from the history engine (the lagging value is left
behind); `sync` is a completed low-priority re-render (the lagging value
catches up to the authoritative one). -/
inductive DeferredStep where
  | set
  | sync
deriving DecidableEq, Repr

/-- Modelled from the spec: the effect of one scheduler event. -/
def stepDeferred (st : DeferredState) : DeferredStep → DeferredState
  | .set => { auth := st.auth + 1, lag := st.lag }
  | .sync => { auth := st.auth, lag := st.auth }

/-- Modelled from the spec: a whole scheduler run. -/
def runDeferred (st : DeferredState) (steps : List DeferredStep) :
    DeferredState :=
  steps.foldl stepDeferred st

/-- Modelled from the spec: the document displayed by the rendering path,
given the documents of the burst indexed by position (index 0 is the
document at burst start). -/
def shownDoc (burst : Nat → DesignSystem) (st : DeferredState) :
    DesignSystem :=
  burst st.lag

theorem setState_of_eq {s : HistoryState} {v : DesignSystem}
    (h : v = s.present) : setState s v = s := by
  simp [setState, h]

theorem setState_of_ne {s : HistoryState} {v : DesignSystem}
    (h : v ≠ s.present) :
    setState s v = ⟨s.past ++ [s.present], v, []⟩ := by
  rw [setState, if_neg]
  exact fun hc => h (designToFields_inj hc)

theorem undo_past_nil (x : DesignSystem) (f : List DesignSystem) :
    undo ⟨[], x, f⟩ = ⟨[], x, f⟩ := rfl

theorem undo_concat (p : List DesignSystem) (y x : DesignSystem)
    (f : List DesignSystem) : undo ⟨p ++ [y], x, f⟩ = ⟨p, y, x :: f⟩ := by
  simp [undo, List.getLast?_concat, List.dropLast_concat]

theorem redo_future_nil (p : List DesignSystem) (x : DesignSystem) :
    redo ⟨p, x, []⟩ = ⟨p, x, []⟩ := rfl

theorem redo_cons (p : List DesignSystem) (x y : DesignSystem)
    (f : List DesignSystem) : redo ⟨p, x, y :: f⟩ = ⟨p ++ [x], y, f⟩ := rfl

theorem undo_iter (p : List DesignSystem) (x : DesignSystem)
    (f : List DesignSystem) :
    undo^[p.length] ⟨p, x, f⟩ = ⟨[], p.headD x, (p ++ [x]).tail ++ f⟩ := by
  induction p using List.reverseRecOn generalizing x f with
  | nil => simp
  | append_singleton q y ih =>
    rw [List.length_append, List.length_cons, List.length_nil, Nat.zero_add,
      Function.iterate_succ_apply, undo_concat, ih]
    cases q <;> simp

theorem redo_iter (f : List DesignSystem) (p : List DesignSystem)
    (x : DesignSystem) :
    redo^[f.length] ⟨p, x, f⟩ = ⟨p ++ (x :: f).dropLast, f.getLastD x, []⟩ := by
  induction f generalizing p x with
  | nil => simp
  | cons y t ih =>
    rw [List.length_cons, Function.iterate_succ_apply, redo_cons, ih]
    simp [List.getLast?_cons]

theorem pairwise_chain {α : Type} (x : α) (l : List α)
    (hx : ∀ y ∈ l, x ≠ y) (hp : l.Pairwise (· ≠ ·)) :
    List.Chain (· ≠ ·) x l := by
  induction l generalizing x with
  | nil => exact .nil
  | cons a t ih =>
    refine .cons (hx a (by simp)) (ih a ?_ ?_)
    · exact fun y hy => (List.pairwise_cons.mp hp).1 y hy
    · exact (List.pairwise_cons.mp hp).2

theorem applySets_chain : ∀ ds : List DesignSystem, ds ≠ [] →
    ∀ (p f : List DesignSystem) (x : DesignSystem),
    List.Chain (· ≠ ·) x ds →
    applySets ⟨p, x, f⟩ ds = ⟨p ++ x :: ds.dropLast, ds.getLastD x, []⟩ := by
  intro ds
  induction ds with
  | nil => exact fun h => absurd rfl h
  | cons d t ih =>
    intro _ p f x hch
    rw [List.chain_cons] at hch
    have hpush : setState ⟨p, x, f⟩ d = ⟨p ++ [x], d, []⟩ :=
      setState_of_ne (Ne.symm hch.1)
    cases t with
    | nil =>
      simp only [applySets, List.foldl_cons, List.foldl_nil, hpush]
      simp
    | cons e t2 =>
      have hstep : applySets ⟨p, x, f⟩ (d :: e :: t2) =
          applySets ⟨p ++ [x], d, []⟩ (e :: t2) := by
        simp only [applySets, List.foldl_cons, hpush]
      rw [hstep, ih (by simp) (p ++ [x]) [] d hch.2]
      simp [List.getLast?_cons]

/-- A second concrete document, differing from the default in one field. -/
def altDesign : DesignSystem := { defaultDesign with primaryColor := "#000000" }

/-- A third concrete document, differing from the other two. -/
def design3 : DesignSystem := { defaultDesign with gridColumns := 4 }

theorem gatedUndo (s : HistoryState) :
    (if canUndo s then undo s else s) = undo s := by
  by_cases h : s.past = []
  · simp [canUndo, h, undo]
  · simp [canUndo, List.length_pos.mpr h]

theorem gatedRedo (s : HistoryState) :
    (if canRedo s then redo s else s) = redo s := by
  by_cases h : s.future = []
  · simp [canRedo, h, redo]
  · simp [canRedo, List.length_pos.mpr h]

/-- C1: for every history state and every value `v`, `set(v)` (or `set(f)`
with `f(present) = v`) is a complete no-op when `v` equals the current
present — `past`, `present`, `future` unchanged, and no persistence write is
triggered; when `v` differs from the present, the result is
`past ++ [present]`, `v`, `[]`. -/
theorem set_equality_gate (s : HistoryState) (v : DesignSystem)
    (f : DesignSystem → DesignSystem) :
    (v = s.present → setState s v = s ∧ ¬ persistWrite s (setState s v)) ∧
    (v ≠ s.present → setState s v = ⟨s.past ++ [s.present], v, []⟩) ∧
    (f s.present = v → setStateF s f = setState s v) := by
  refine ⟨fun h => ?_, fun h => setState_of_ne h, fun h => by rw [setStateF, h]⟩
  rw [setState_of_eq h]
  exact ⟨rfl, fun hw => hw rfl⟩

theorem set_equality_gate_witness :
    (setState ⟨[], defaultDesign, []⟩ defaultDesign = ⟨[], defaultDesign, []⟩ ∧
      ¬ persistWrite ⟨[], defaultDesign, []⟩
        (setState ⟨[], defaultDesign, []⟩ defaultDesign)) ∧
    setState ⟨[], defaultDesign, []⟩ altDesign =
      ⟨[defaultDesign], altDesign, []⟩ ∧
    setStateF ⟨[], defaultDesign, []⟩ (fun _ => altDesign) =
      setState ⟨[], defaultDesign, []⟩ altDesign :=
  ⟨(set_equality_gate ⟨[], defaultDesign, []⟩ defaultDesign id).1 rfl,
   (set_equality_gate ⟨[], defaultDesign, []⟩ altDesign
      (fun _ => altDesign)).2.1 (by decide),
   (set_equality_gate ⟨[], defaultDesign, []⟩ altDesign
      (fun _ => altDesign)).2.2 rfl⟩

/-- C3 fails as stated: an equality-gated no-op `set` leaves a non-empty
`future` untouched.  Concretely, setting the current present again on a
state with a non-empty redo stack keeps that stack. -/
theorem set_clears_future_counterexample :
    ¬ (setState ⟨[], defaultDesign, [altDesign]⟩ defaultDesign).future = [] := by
  rw [setState_of_eq rfl]
  simp

/-- C3 (amended): after any `set` call that actually changes the document,
`future` is empty, even if it was non-empty beforehand; an equality-gated
no-op `set` instead leaves the whole state — including a non-empty
`future` — unchanged. -/
theorem set_clears_future (s : HistoryState) (v : DesignSystem) :
    (setState s v).future = [] ∨ setState s v = s := by
  by_cases h : designToFields v = designToFields s.present
  · right; simp [setState, h]
  · left; simp [setState, h]

/-- C4: `undo` on an empty past and `redo` on an empty future leave the
state unchanged, raise no error, and arbitrary repetition past the stack
boundary remains a no-op. -/
theorem underflow_noop (s : HistoryState) (n : Nat) :
    (s.past = [] → undo s = s ∧ undo^[n] s = s) ∧
    (s.future = [] → redo s = s ∧ redo^[n] s = s) := by
  constructor
  · intro h
    have h1 : undo s = s := by simp [undo, h]
    exact ⟨h1, Function.iterate_fixed h1 n⟩
  · intro h
    have h1 : redo s = s := by simp [redo, h]
    exact ⟨h1, Function.iterate_fixed h1 n⟩

theorem underflow_noop_witness :
    undo ⟨[], defaultDesign, []⟩ = ⟨[], defaultDesign, []⟩ ∧
    undo^[3] ⟨[], defaultDesign, []⟩ = ⟨[], defaultDesign, []⟩ ∧
    redo ⟨[], defaultDesign, []⟩ = ⟨[], defaultDesign, []⟩ ∧
    redo^[3] ⟨[], defaultDesign, []⟩ = ⟨[], defaultDesign, []⟩ := by
  obtain ⟨h1, h2⟩ := underflow_noop ⟨[], defaultDesign, []⟩ 3
  exact ⟨(h1 rfl).1, (h1 rfl).2, (h2 rfl).1, (h2 rfl).2⟩

/-- C10: whenever `undo` or `redo` acts (non-empty past resp. future), the
sequence `past ++ [present] ++ future` is conserved: the operations only
move the present pointer. -/
theorem undo_redo_conserve (s : HistoryState) :
    (s.past ≠ [] →
      (undo s).past ++ (undo s).present :: (undo s).future =
        s.past ++ s.present :: s.future) ∧
    (s.future ≠ [] →
      (redo s).past ++ (redo s).present :: (redo s).future =
        s.past ++ s.present :: s.future) := by
  obtain ⟨p, x, f⟩ := s
  constructor
  · intro h
    rcases List.eq_nil_or_concat p with rfl | ⟨q, y, rfl⟩
    · exact absurd rfl h
    · rw [List.concat_eq_append, undo_concat]
      simp
  · intro h
    cases f with
    | nil => exact absurd rfl h
    | cons y t =>
      rw [redo_cons]
      simp

theorem undo_redo_conserve_witness :
    (undo ⟨[defaultDesign], altDesign, []⟩).past ++
        (undo ⟨[defaultDesign], altDesign, []⟩).present ::
        (undo ⟨[defaultDesign], altDesign, []⟩).future =
      [defaultDesign] ++ altDesign :: [] ∧
    (redo ⟨[], defaultDesign, [altDesign]⟩).past ++
        (redo ⟨[], defaultDesign, [altDesign]⟩).present ::
        (redo ⟨[], defaultDesign, [altDesign]⟩).future =
      [] ++ defaultDesign :: [altDesign] :=
  ⟨(undo_redo_conserve ⟨[defaultDesign], altDesign, []⟩).1 (by simp),
   (undo_redo_conserve ⟨[], defaultDesign, [altDesign]⟩).2 (by simp)⟩

/-- C8: for every keyboard event with the control-or-command modifier, `z`
without shift performs undo (a no-op when the past is empty), `z` with
shift performs redo, `y` performs redo, and an empty respective stack makes
the event a no-op on the history state. -/
theorem keyboard_shortcuts (s : HistoryState) (e : KeyEvent)
    (hmod : e.ctrlKey || e.metaKey) :
    (e.key = "z" → e.shiftKey = false → handleKeyDown s e = undo s) ∧
    (e.key = "z" → e.shiftKey = true → handleKeyDown s e = redo s) ∧
    (e.key = "y" → handleKeyDown s e = redo s) ∧
    (e.key = "z" → e.shiftKey = false → s.past = [] → handleKeyDown s e = s) ∧
    ((e.key = "y" ∨ (e.key = "z" ∧ e.shiftKey = true)) → s.future = [] →
      handleKeyDown s e = s) := by
  refine ⟨fun hz hs => ?_, fun hz hs => ?_, fun hy => ?_,
    fun hz hs hpast => ?_, fun hkey hfut => ?_⟩
  · rw [handleKeyDown, if_pos hmod, if_pos hz, hs]
    exact gatedUndo s
  · rw [handleKeyDown, if_pos hmod, if_pos hz, hs]
    exact gatedRedo s
  · have hne : ¬ e.key = "z" := by rw [hy]; decide
    rw [handleKeyDown, if_pos hmod, if_neg hne, if_pos hy]
    exact gatedRedo s
  · rw [handleKeyDown, if_pos hmod, if_pos hz, hs]
    rw [gatedUndo s]
    simp [undo, hpast]
  · have hred : redo s = s := by simp [redo, hfut]
    rcases hkey with hy | ⟨hz, hs⟩
    · have hne : ¬ e.key = "z" := by rw [hy]; decide
      rw [handleKeyDown, if_pos hmod, if_neg hne, if_pos hy, gatedRedo s, hred]
    · rw [handleKeyDown, if_pos hmod, if_pos hz, hs, gatedRedo s, hred]
      simp

theorem keyboard_shortcuts_witness :
    handleKeyDown ⟨[defaultDesign], altDesign, []⟩
        ⟨true, false, false, "z"⟩ =
      undo ⟨[defaultDesign], altDesign, []⟩ ∧
    handleKeyDown ⟨[], defaultDesign, [altDesign]⟩
        ⟨true, false, true, "z"⟩ =
      redo ⟨[], defaultDesign, [altDesign]⟩ ∧
    handleKeyDown ⟨[], defaultDesign, [altDesign]⟩
        ⟨false, true, false, "y"⟩ =
      redo ⟨[], defaultDesign, [altDesign]⟩ ∧
    handleKeyDown ⟨[], defaultDesign, []⟩ ⟨true, false, false, "z"⟩ =
      ⟨[], defaultDesign, []⟩ ∧
    handleKeyDown ⟨[], defaultDesign, []⟩ ⟨true, false, false, "y"⟩ =
      ⟨[], defaultDesign, []⟩ :=
  ⟨(keyboard_shortcuts ⟨[defaultDesign], altDesign, []⟩
      ⟨true, false, false, "z"⟩ (by decide)).1 rfl rfl,
   (keyboard_shortcuts ⟨[], defaultDesign, [altDesign]⟩
      ⟨true, false, true, "z"⟩ (by decide)).2.1 rfl rfl,
   (keyboard_shortcuts ⟨[], defaultDesign, [altDesign]⟩
      ⟨false, true, false, "y"⟩ (by decide)).2.2.1 rfl,
   (keyboard_shortcuts ⟨[], defaultDesign, []⟩
      ⟨true, false, false, "z"⟩ (by decide)).2.2.2.1 rfl rfl rfl,
   (keyboard_shortcuts ⟨[], defaultDesign, []⟩
      ⟨true, false, false, "y"⟩ (by decide)).2.2.2.2 (.inl rfl) rfl⟩

theorem push_roundtrip (d0 : DesignSystem) (l : List DesignSystem)
    (hl : l ≠ []) (hch : List.Chain (· ≠ ·) d0 l) :
    undo^[l.length] (applySets ⟨[], d0, []⟩ l) = ⟨[], d0, l⟩ ∧
    redo^[l.length] ⟨[], d0, l⟩ =
      ⟨(d0 :: l).dropLast, l.getLastD d0, []⟩ := by
  have hlast : l.getLastD d0 = l.getLast hl := by
    rw [List.getLastD_eq_getLast?, List.getLast?_eq_getLast l hl, Option.getD_some]
  constructor
  · rw [applySets_chain l hl [] [] d0 hch, List.nil_append]
    have hlen : l.length = (d0 :: l.dropLast).length := by
      have := List.length_pos.mpr hl
      simp [List.length_dropLast]
      omega
    rw [hlen, undo_iter]
    have htail : ((d0 :: l.dropLast) ++ [l.getLastD d0]).tail = l := by
      rw [List.cons_append, List.tail_cons, hlast,
        List.dropLast_append_getLast hl]
    rw [htail]
    simp
  · rw [redo_iter, List.nil_append]

/-- C2: from an initial state with empty stacks, after a sequence of `set`
calls with pairwise-distinct documents, undoing as many times as there were
calls restores the initial document, and then redoing the same number of
times restores the final document. -/
theorem round_trip_law (d0 : DesignSystem) (ds : List DesignSystem)
    (hp : ds.Pairwise (· ≠ ·)) :
    (undo^[ds.length] (applySets ⟨[], d0, []⟩ ds)).present = d0 ∧
    (redo^[ds.length]
        (undo^[ds.length] (applySets ⟨[], d0, []⟩ ds))).present =
      ds.getLastD d0 := by
  cases ds with
  | nil => simp [applySets]
  | cons d1 rest =>
    obtain ⟨hd1, hprest⟩ := List.pairwise_cons.mp hp
    by_cases h1 : d1 = d0
    · have hgate : setState ⟨[], d0, []⟩ d1 = ⟨[], d0, []⟩ :=
        setState_of_eq h1
      have hfirst : applySets ⟨[], d0, []⟩ (d1 :: rest) =
          applySets ⟨[], d0, []⟩ rest := by
        simp only [applySets, List.foldl_cons, hgate]
      rw [hfirst, List.length_cons]
      cases rest with
      | nil =>
        simp [applySets, undo_past_nil, redo_future_nil, h1]
      | cons e t =>
        have hch : List.Chain (· ≠ ·) d0 (e :: t) :=
          pairwise_chain d0 (e :: t) (fun y hy => h1 ▸ hd1 y hy) hprest
        obtain ⟨hu, hr⟩ := push_roundtrip d0 (e :: t) (by simp) hch
        have hin : undo^[(e :: t).length + 1]
            (applySets ⟨[], d0, []⟩ (e :: t)) = ⟨[], d0, e :: t⟩ := by
          rw [Function.iterate_succ_apply', hu, undo_past_nil]
        constructor
        · rw [hin]
        · rw [hin, Function.iterate_succ_apply', hr, redo_future_nil]
          simp
    · have hch : List.Chain (· ≠ ·) d0 (d1 :: rest) :=
        List.Chain.cons (Ne.symm h1) (pairwise_chain d1 rest hd1 hprest)
      obtain ⟨hu, hr⟩ := push_roundtrip d0 (d1 :: rest) (by simp) hch
      exact ⟨by rw [hu], by rw [hu, hr]⟩

theorem round_trip_law_witness :
    (undo^[2] (applySets ⟨[], defaultDesign, []⟩ [altDesign, design3])).present =
      defaultDesign ∧
    (redo^[2]
        (undo^[2]
          (applySets ⟨[], defaultDesign, []⟩ [altDesign, design3]))).present =
      [altDesign, design3].getLastD defaultDesign :=
  round_trip_law defaultDesign [altDesign, design3] (by decide)

theorem getProp_append_left {l1 l2 : List (String × Json)} {k : String}
    {v : Json} (h : getProp l1 k = some v) :
    getProp (l1 ++ l2) k = some v := by
  induction l1 with
  | nil => simp [getProp] at h
  | cons kv rest ih =>
    obtain ⟨k0, v0⟩ := kv
    rw [List.cons_append]
    by_cases hk : k = k0
    · simp [getProp, hk] at h ⊢
      exact h
    · simp [getProp, hk] at h ⊢
      exact ih h

theorem getProp_map_override (b : List (String × Json)) :
    ∀ (a : List (String × Json)) (k : String) (v : Json),
    getProp a k = some v →
    getProp (a.map (fun kv =>
      match getProp b kv.1 with
      | some w => (kv.1, w)
      | none => kv)) k = some ((getProp b k).getD v) := by
  intro a
  induction a with
  | nil => intro k v h; simp [getProp] at h
  | cons kv rest ih =>
    intro k v h
    obtain ⟨k0, v0⟩ := kv
    rw [List.map_cons]
    by_cases hk : k = k0
    · subst hk
      have h0 : v0 = v := by simpa [getProp] using h
      subst h0
      cases hb : getProp b k with
      | some w => simp [getProp, hb]
      | none => simp [getProp, hb]
    · simp only [getProp, if_neg hk] at h
      cases hb0 : getProp b k0 with
      | some w =>
        simp only [hb0, getProp, if_neg hk]
        exact ih k v h
      | none =>
        simp only [hb0, getProp, if_neg hk]
        exact ih k v h

theorem getProp_spread {a b : List (String × Json)} {k : String} {v : Json}
    (h : getProp a k = some v) :
    getProp (spreadFields a b) k = some ((getProp b k).getD v) := by
  rw [spreadFields]
  exact getProp_append_left (getProp_map_override b a k v h)

theorem getProp_mem_keys {l : List (String × Json)} {k : String} {v : Json}
    (h : getProp l k = some v) : k ∈ l.map Prod.fst := by
  induction l with
  | nil => simp [getProp] at h
  | cons kv rest ih =>
    obtain ⟨k0, v0⟩ := kv
    by_cases hk : k = k0
    · simp [hk]
    · simp only [getProp, if_neg hk] at h
      simp [ih h]

theorem spread_self (dflt d : DesignSystem) :
    spreadFields (designToFields dflt) (designToFields d) =
      designToFields d := rfl

theorem fieldsList_roundtrip (l : List (String × Json)) :
    jsonFieldsToList (listToJsonFields l) = l := by
  induction l with
  | nil => rfl
  | cons kv rest ih =>
    obtain ⟨k, v⟩ := kv
    rw [listToJsonFields, jsonFieldsToList, ih]

theorem digitChar_isDigit {m : Nat} (h : m < 10) :
    (Nat.digitChar m).isDigit = true := by
  interval_cases m <;> decide

theorem toDigitsCore_digits :
    ∀ (fuel n : Nat) (ds : List Char), (∀ c ∈ ds, c.isDigit = true) →
    ∀ c ∈ Nat.toDigitsCore 10 fuel n ds, c.isDigit = true := by
  intro fuel
  induction fuel with
  | zero => intro n ds hds c hc; exact hds c hc
  | succ fu ih =>
    intro n ds hds c hc
    rw [Nat.toDigitsCore] at hc
    have hdig : (Nat.digitChar (n % 10)).isDigit = true :=
      digitChar_isDigit (Nat.mod_lt n (by norm_num))
    split at hc
    · rcases List.mem_cons.mp hc with rfl | hmem
      · exact hdig
      · exact hds c hmem
    · refine ih (n / 10) _ ?_ c hc
      intro c2 hc2
      rcases List.mem_cons.mp hc2 with rfl | hmem
      · exact hdig
      · exact hds c2 hmem

theorem natRepr_digits (n : Nat) : ∀ c ∈ (Nat.repr n).data, c.isDigit = true := by
  intro c hc
  have : (Nat.repr n).data = Nat.toDigitsCore 10 (n + 1) n [] := rfl
  rw [this] at hc
  exact toDigitsCore_digits (n + 1) n [] (by simp) c hc

theorem ne_natRepr {k : String} {c : Char} (hc : c ∈ k.data)
    (hd : c.isDigit = false) (n : Nat) : k ≠ Nat.repr n := by
  intro h
  subst h
  rw [natRepr_digits n c hc] at hd
  exact Bool.noConfusion hd

theorem getProp_indexFields_none {k : String}
    (hk : ∀ n : Nat, k ≠ Nat.repr n) :
    ∀ (vs : List Json) (start : Nat), getProp (indexFields vs start) k = none := by
  intro vs
  induction vs with
  | nil => intro start; rfl
  | cons v rest ih =>
    intro start
    simp only [indexFields, getProp, if_neg (hk start)]
    exact ih (start + 1)

/-- Discrimination of object payloads. -/
def Json.isObj : Json → Bool
  | .obj _ => true
  | _ => false

theorem designToFields_keys (d : DesignSystem) :
    (designToFields d).map Prod.fst =
      ["primaryColor", "secondaryColor", "fontFamily", "borderRadius",
       "layoutMode", "darkMode", "baseFontSize", "headingText",
       "subheadingText", "bodyText", "gridColumns", "gridGap"] := rfl

theorem schemaKey_not_repr {k : String}
    (hk : k ∈ ["primaryColor", "secondaryColor", "fontFamily", "borderRadius",
      "layoutMode", "darkMode", "baseFontSize", "headingText",
      "subheadingText", "bodyText", "gridColumns", "gridGap"]) (n : Nat) :
    k ≠ Nat.repr n := by
  simp only [List.mem_cons, List.not_mem_nil, or_false] at hk
  rcases hk with rfl | rfl | rfl | rfl | rfl | rfl | rfl | rfl | rfl | rfl | rfl | rfl
  · exact ne_natRepr (c := 'p') (by decide) (by decide) n
  · exact ne_natRepr (c := 's') (by decide) (by decide) n
  · exact ne_natRepr (c := 'f') (by decide) (by decide) n
  · exact ne_natRepr (c := 'b') (by decide) (by decide) n
  · exact ne_natRepr (c := 'l') (by decide) (by decide) n
  · exact ne_natRepr (c := 'd') (by decide) (by decide) n
  · exact ne_natRepr (c := 'b') (by decide) (by decide) n
  · exact ne_natRepr (c := 'h') (by decide) (by decide) n
  · exact ne_natRepr (c := 's') (by decide) (by decide) n
  · exact ne_natRepr (c := 'b') (by decide) (by decide) n
  · exact ne_natRepr (c := 'g') (by decide) (by decide) n
  · exact ne_natRepr (c := 'g') (by decide) (by decide) n

/-- C5: a document serialized, stored, and reloaded through the startup
merge comes back unchanged (every schema field at save time survives); a
stored payload that is a plain object merges field-by-field over the
defaults, and every schema field of the result is the payload's value where
the payload has the key and the default otherwise — so unknown extra keys
never affect a schema field. -/
theorem persist_reload_merge (dflt d : DesignSystem)
    (p : List (String × Json)) (k : String) (v : Json) :
    (initHistory dflt
        (some (some (.obj (listToJsonFields (designToFields d)))))).present =
      designToFields d ∧
    (initHistory dflt (some (some (.obj (listToJsonFields p))))).present =
      spreadFields (designToFields dflt) p ∧
    (getProp (designToFields dflt) k = some v →
      getProp (spreadFields (designToFields dflt) p) k =
        some ((getProp p k).getD v)) := by
  refine ⟨?_, ?_, fun h => getProp_spread h⟩
  · show spreadFields (designToFields dflt)
        (jsonFieldsToList (listToJsonFields (designToFields d))) =
      designToFields d
    rw [fieldsList_roundtrip]
    exact spread_self dflt d
  · show spreadFields (designToFields dflt)
        (jsonFieldsToList (listToJsonFields p)) =
      spreadFields (designToFields dflt) p
    rw [fieldsList_roundtrip]

theorem persist_reload_merge_witness :
    (initHistory defaultDesign
        (some (some (.obj (listToJsonFields
          (designToFields altDesign)))))).present =
      designToFields altDesign ∧
    (initHistory defaultDesign
        (some (some (.obj (listToJsonFields
          [("primaryColor", Json.str "#123456")]))))).present =
      spreadFields (designToFields defaultDesign)
        [("primaryColor", Json.str "#123456")] ∧
    getProp (spreadFields (designToFields defaultDesign)
        [("primaryColor", Json.str "#123456")]) "gridGap" =
      some ((getProp [("primaryColor", Json.str "#123456")] "gridGap").getD
        (Json.num 24)) :=
  ⟨(persist_reload_merge defaultDesign altDesign [] "x" Json.null).1,
   (persist_reload_merge defaultDesign defaultDesign
      [("primaryColor", Json.str "#123456")] "x" Json.null).2.1,
   (persist_reload_merge defaultDesign defaultDesign
      [("primaryColor", Json.str "#123456")] "gridGap" (Json.num 24)).2.2 rfl⟩

/-- C6: a stored payload that fails to parse, or parses to a value that is
not an object, is treated as absence: every schema field of the resulting
initial document equals the hardcoded default, no error is raised (the
initializer is total), and `past` and `future` start empty. -/
theorem load_failure_defaults (dflt : DesignSystem) (j : Json) (k : String)
    (v : Json) :
    initHistory dflt none = ⟨[], designToFields dflt, []⟩ ∧
    initHistory dflt (some none) = ⟨[], designToFields dflt, []⟩ ∧
    (Json.isObj j = false → getProp (designToFields dflt) k = some v →
      (initHistory dflt (some (some j))).past = [] ∧
      (initHistory dflt (some (some j))).future = [] ∧
      getProp (initHistory dflt (some (some j))).present k = some v) := by
  refine ⟨rfl, rfl, fun hj hk => ⟨rfl, rfl, ?_⟩⟩
  have hni : ∀ n : Nat, k ≠ Nat.repr n := by
    have hmem := getProp_mem_keys hk
    rw [designToFields_keys] at hmem
    exact schemaKey_not_repr hmem
  have hnone : getProp (parsedFields j) k = none := by
    cases j with
    | obj fs => exact absurd hj (by simp [Json.isObj])
    | str s => exact getProp_indexFields_none hni _ 0
    | arr es => exact getProp_indexFields_none hni _ 0
    | num n => rfl
    | bool b => rfl
    | null => rfl
  show getProp (spreadFields (designToFields dflt) (parsedFields j)) k =
    some v
  rw [getProp_spread hk, hnone]
  rfl

theorem load_failure_defaults_witness :
    initHistory defaultDesign none =
      ⟨[], designToFields defaultDesign, []⟩ ∧
    initHistory defaultDesign (some none) =
      ⟨[], designToFields defaultDesign, []⟩ ∧
    (initHistory defaultDesign (some (some (Json.num 42)))).past = [] ∧
    (initHistory defaultDesign (some (some (Json.num 42)))).future = [] ∧
    getProp (initHistory defaultDesign
        (some (some (Json.num 42)))).present "primaryColor" =
      some (Json.str "#3b82f6") := by
  obtain ⟨h1, h2, h3⟩ := load_failure_defaults defaultDesign (Json.num 42)
    "primaryColor" (Json.str "#3b82f6")
  obtain ⟨h4, h5, h6⟩ := h3 rfl rfl
  exact ⟨h1, h2, h4, h5, h6⟩

/-- C7 fails as stated on the unbalanced vector: on `"**oops"` the two
leading delimiter characters do not pass through as literal characters —
the regex consumes `"**"` (via the single-star alternative) and the mapper
classifies it as a bold part whose `slice(2, -2)` is empty, so the rendered
text is `"oops"`, not `"**oops"`: the two asterisks are dropped. -/
theorem formatted_text_counterexample :
    ¬ String.join ((renderFormattedText "**oops" "#3b82f6" "#10b981").map
        segText) = "**oops" := by
  decide

/-- C7 (amended): the renderer maps `"plain"` to a single plain segment,
`"**bold**"` to a primary-styled segment `"bold"` between two empty plain
segments, `"*it*"` to a secondary-styled segment `"it"` between two empty
plain segments, and `"a **b** c *d* e"` to five segments alternating
plain/styled/plain/styled/plain; empty input yields no output and the
function is total.  For unbalanced `"**oops"`, however, the two delimiter
characters are consumed into an empty primary-styled segment and only
`"oops"` passes through. -/
theorem formatted_text_vectors (p s : String) :
    renderFormattedText "plain" p s = [.plain "plain"] ∧
    renderFormattedText "**bold**" p s =
      [.plain "", .styledPrimary "bold" p, .plain ""] ∧
    renderFormattedText "*it*" p s =
      [.plain "", .styledSecondary "it" s, .plain ""] ∧
    renderFormattedText "a **b** c *d* e" p s =
      [.plain "a ", .styledPrimary "b" p, .plain " c ",
       .styledSecondary "d" s, .plain " e"] ∧
    renderFormattedText "**oops" p s =
      [.plain "", .styledPrimary "" p, .plain "oops"] ∧
    renderFormattedText "" p s = [] :=
  ⟨rfl, rfl, rfl, rfl, rfl, rfl⟩

/-- C9: Modelled from the spec (the deferred scheduler is React-internal):
along any run, the lagging value only moves forward through the burst — it
never shows an index below one already shown and never exceeds the
authoritative index — and as soon as a re-render completes with no newer
`set` (a trailing `sync`), the shown document is exactly the latest
authoritative one, so no update is permanently dropped. -/
theorem deferred_monotone (burst : Nat → DesignSystem) (st : DeferredState)
    (steps : List DeferredStep) :
    (st.lag ≤ st.auth →
      st.lag ≤ (runDeferred st steps).lag ∧
      (runDeferred st steps).lag ≤ (runDeferred st steps).auth) ∧
    (runDeferred st (steps ++ [DeferredStep.sync])).lag =
      (runDeferred st steps).auth ∧
    shownDoc burst (runDeferred st (steps ++ [DeferredStep.sync])) =
      burst (runDeferred st steps).auth := by
  refine ⟨?_, ?_, ?_⟩
  · induction steps generalizing st with
    | nil => exact fun hinv => ⟨le_refl _, hinv⟩
    | cons a t ih =>
      intro hinv
      have hstep : st.lag ≤ (stepDeferred st a).lag ∧
          (stepDeferred st a).lag ≤ (stepDeferred st a).auth := by
        cases a <;> simp [stepDeferred] <;> omega
      obtain ⟨h1, h2⟩ := ih (stepDeferred st a) hstep.2
      exact ⟨le_trans hstep.1 h1, h2⟩
  · simp [runDeferred, List.foldl_append, stepDeferred]
  · simp [runDeferred, List.foldl_append, stepDeferred, shownDoc]

theorem deferred_monotone_witness :
    (0 : Nat) ≤ (runDeferred ⟨0, 0⟩
        [DeferredStep.set, DeferredStep.set]).lag ∧
    (runDeferred ⟨0, 0⟩ [DeferredStep.set, DeferredStep.set]).lag ≤
      (runDeferred ⟨0, 0⟩ [DeferredStep.set, DeferredStep.set]).auth ∧
    shownDoc (fun n => if n = 0 then defaultDesign else altDesign)
        (runDeferred ⟨0, 0⟩
          [DeferredStep.set, DeferredStep.set, DeferredStep.sync]) =
      (fun n => if n = 0 then defaultDesign else altDesign)
        (runDeferred ⟨0, 0⟩ [DeferredStep.set, DeferredStep.set]).auth := by
  obtain ⟨h1, _, h3⟩ := deferred_monotone
    (fun n => if n = 0 then defaultDesign else altDesign) ⟨0, 0⟩
    [DeferredStep.set, DeferredStep.set]
  obtain ⟨h4, h5⟩ := h1 (le_refl 0)
  exact ⟨h4, h5, h3⟩
